import Mathlib

/-!
Verification development for the rphash repository (Go).

The Go source is shallowly embedded: `int64` values are modelled as `Int`
normalised into the two's-complement range by `wrap64`, Go maps become
association lists, slices become lists, and panics become `Option.none`.
Definitions follow the source files `src/unnamed/part_000`
(package `itemset`: the KHH count-min sketch), `src/unnamed/part_001`
(package `simple`: the map/reduce driver) and `src/projection/rp/rp.go`
(the sparse random projection).  Components of the repository that are not
under `src/` (the `utils` priority queue, `utils.HashCode`, the LSH and
centroid types) are modelled from the specification and are marked
`Modelled from the spec:` in their doc comments.  `float64` arithmetic in
the projection is modelled over `ℝ`.
-/

namespace RPHash

/-- Two's-complement wrap of an integer into the `int64` range
`[-2^63, 2^63)`; Go's `int64` addition and multiplication wrap this way. -/
def wrap64 (z : Int) : Int :=
  (z + 2 ^ 63) % 2 ^ 64 - 2 ^ 63

/-- Arithmetic shift right by 32 of an `int64` value (Go's `>> 32` on a
signed integer), i.e. floor division by `2^32`. -/
def asr32 (z : Int) : Int :=
  Int.fdiv z (2 ^ 32)

/-- The body of `KHHCountMinSketch.Hash` from `src/unnamed/part_000`:
`hash := hashA[i] * item; hash += hash >> 32; hash &= PRIME_MODULUS;
return int(hash) % width`.  The `&` with `PRIME_MODULUS = 2^31 - 1` keeps
the low 31 bits, i.e. the Euclidean remainder modulo `2^31`. -/
def goHash (a item : Int) (w : Nat) : Nat :=
  let h0 := wrap64 (a * item)
  let h1 := wrap64 (h0 + asr32 h0)
  (Int.toNat (Int.emod h1 (2 ^ 31))) % w

/-- Modelled from the spec: `utils.HashCode` is not under `src/`; the spec
says `hashcode` "maps the input key type to `int64` (identity for int64
labels)". -/
def HashCode (e : Int) : Int := e

/-- Go `map[int64]int64` read for the association-list model: the value
of the first pair with the sought key. -/
def mapLookup : List (Int × Int) → Int → Option Int
  | [], _ => none
  | (k, v) :: rest, key => if k = key then some v else mapLookup rest key

/-- Go `delete(m, key)` for the association-list model. -/
def mapErase : List (Int × Int) → Int → List (Int × Int)
  | [], _ => []
  | (k, v) :: rest, key =>
    if k = key then mapErase rest key else (k, v) :: mapErase rest key

/-- Go `m[key] = v` for the association-list model. -/
def mapInsert (m : List (Int × Int)) (key v : Int) : List (Int × Int) :=
  (key, v) :: mapErase m key

/-- The current estimated count of a label: `countlist` read with the Go
map default `0`. -/
def countOf (cl : List (Int × Int)) (x : Int) : Int :=
  (mapLookup cl x).getD 0

/-- Modelled from the spec: `utils.Int64PriorityQueue` is not under
`src/`.  The spec describes "a bounded min-heap … containing labels,
ordered by their current estimated count (smallest on top)", with ties
broken by arrival.  The queue is the list of labels in arrival order;
`poll` removes and returns the earliest label of minimal current count. -/
def poll (cl : List (Int × Int)) : List Int → Int × List Int
  | [] => (0, [])
  | [x] => (x, [])
  | x :: y :: q =>
    let p := poll cl (y :: q)
    if countOf cl x ≤ countOf cl p.1 then (x, y :: q) else (p.1, x :: p.2)

/-- Modelled from the spec: `Enqueue` pushes a label (arrival order). -/
def enqueue (q : List Int) (e : Int) : List Int := q ++ [e]

/-- Modelled from the spec: in `Add`'s re-insertion branch the source
calls `Dequeue()`; the spec says this pops "the current entry for `item`
from the heap", so it removes the first occurrence of the label. -/
def dequeue (q : List Int) (e : Int) : List Int := q.erase e

/-- The `KHHCountMinSketch` struct of `src/unnamed/part_000`.  The
`depth × width` table is a total function (a Go array), the maps `items`
and `countlist` are association lists keyed by `int64`, and `counts` /
`topcent` are `none` while the corresponding Go slices are `nil`. -/
structure KHHCountMinSketch where
  depth : Nat
  width : Nat
  table : Nat → Nat → Int
  hashA : List Int
  size : Int
  priorityQueue : List Int
  k : Nat
  items : List (Int × Int)
  countlist : List (Int × Int)
  count : Int
  counts : Option (List Int)
  topcent : Option (List Int)

namespace KHHCountMinSketch

/-- `KHHCountMinSketch.Hash` from `src/unnamed/part_000` lines 49-55.
Indexing `hashA[i]` out of range or taking `% width` with `width = 0`
panics in Go; both are modelled as `none`. -/
def Hash (s : KHHCountMinSketch) (item : Int) (i : Nat) : Option Nat :=
  if h : i < s.hashA.length ∧ 0 < s.width then
    some (goHash (s.hashA.get ⟨i, h.1⟩) item s.width)
  else none

/-- The bucket row `i` of `item` hashes to, as a total function (agrees
with `Hash` whenever `Hash` succeeds). -/
def hashOf (s : KHHCountMinSketch) (item : Int) (i : Nat) : Nat :=
  goHash (s.hashA.getD i 0) item s.width

/-- Pointwise update of the sketch table at row `i`, bucket `j`. -/
def upd2 (f : Nat → Nat → Int) (i j : Nat) (v : Int) : Nat → Nat → Int :=
  fun a b => if a = i ∧ b = j then v else f a b

/-- The `for i := 1; i < depth` loop of `AddLong`: starting at row `i`
with `fuel` rows left, increment `table[i][Hash(item, i)]` and keep the
running minimum of the freshly incremented counters. -/
def rowsLoop (item cnt : Int) :
    Nat → Nat → Int → KHHCountMinSketch → Option (Int × KHHCountMinSketch)
  | 0, _, minv, s => some (minv, s)
  | fuel + 1, i, minv, s =>
    match Hash s item i with
    | none => none
    | some j =>
      let t := wrap64 (s.table i j + cnt)
      rowsLoop item cnt fuel (i + 1) (if t < minv then t else minv)
        { s with table := upd2 s.table i j t }

/-- `KHHCountMinSketch.AddLong` from `src/unnamed/part_000` lines 76-87:
increment row 0, initialise the minimum to the incremented counter, run
the loop over rows `1 .. depth-1`, add `cnt` to `size`, and return the
minimum together with the updated sketch. -/
def AddLong (s : KHHCountMinSketch) (item cnt : Int) :
    Option (Int × KHHCountMinSketch) :=
  match Hash s item 0 with
  | none => none
  | some j =>
    let t := wrap64 (s.table 0 j + cnt)
    match rowsLoop item cnt (s.depth - 1) 1 t { s with table := upd2 s.table 0 j t } with
    | none => none
    | some (minv, s1) => some (minv, { s1 with size := wrap64 (s1.size + cnt) })

/-- The insertion phase of `Add` (`src/unnamed/part_000` lines 58-68,
everything before the eviction check): `AddLong(HashCode e, 1)`, then
either the first-insertion branch or the re-insertion branch, updating
`countlist`, the queue and `items`. -/
def addInsert (s : KHHCountMinSketch) (e : Int) : Option KHHCountMinSketch :=
  match AddLong s (HashCode e) 1 with
  | none => none
  | some (c, s1) =>
    if (mapLookup s1.items (HashCode e)).isSome then
      some { s1 with
        priorityQueue := enqueue (dequeue s1.priorityQueue e) e,
        items := mapInsert s1.items (HashCode e) e,
        countlist := mapInsert s1.countlist (HashCode e) c }
    else
      some { s1 with
        countlist := mapInsert s1.countlist (HashCode e) c,
        priorityQueue := enqueue s1.priorityQueue e,
        items := mapInsert s1.items (HashCode e) e }

/-- `KHHCountMinSketch.Add` from `src/unnamed/part_000` lines 57-74: the
insertion phase followed by the eviction check — when the queue exceeds
`k`, poll the minimum-count label and delete it from `items` only (the
source never deletes from `countlist`). -/
def Add (s : KHHCountMinSketch) (e : Int) : Option KHHCountMinSketch :=
  match addInsert s e with
  | none => none
  | some s1 =>
    if s1.k < s1.priorityQueue.length then
      let p := poll s1.countlist s1.priorityQueue
      some { s1 with priorityQueue := p.2, items := mapErase s1.items p.1 }
    else some s1

end KHHCountMinSketch

/-- The capacity computation `int(float64(m) * math.Log(float64(m)))` of
`NewKHHCountMinSketch` (`src/unnamed/part_000` line 26) and `Simple.Map`
(`src/unnamed/part_001` line 33), with `float64` modelled over `ℝ`: Go's
`int(_)` conversion truncates, which for the nonnegative value `m·ln m`
is the floor (not the ceiling). -/
noncomputable def kPrime (m : Nat) : Nat :=
  Nat.floor ((m : ℝ) * Real.log m)

/-- `NewKHHCountMinSketch` from `src/unnamed/part_000` lines 25-47.  The
Go source references package-level identifiers `depth` and `width` that
are undefined in the repository; Modelled from the spec: the spec fixes
`depth = 2`, `width = k'` by default but requires both to be exposed, so
they are parameters here.  The constructor draws per-row hash
coefficients from a time-seeded generator into a local slice but never
assigns that slice to the result, so the returned sketch's `hashA` is
Go's zero value `nil` — the empty list — and the discarded local
randomness cannot affect the result. -/
noncomputable def NewKHHCountMinSketch (depth width m : Nat) : KHHCountMinSketch where
  depth := depth
  width := width
  table := fun _ _ => 0
  hashA := []
  size := 0
  priorityQueue := []
  k := kPrime m
  items := []
  countlist := []
  count := 0
  counts := none
  topcent := none

/-- The drain loop of `GetTop`, with fuel bounding the iteration count:
while the queue is nonempty, poll it, recording the polled label and, in
parallel, its `countlist` count.  Each poll removes exactly one element,
so fuel `q.length` runs the loop to emptiness. -/
def drainAux (cl : List (Int × Int)) : Nat → List Int → List Int × List Int
  | 0, _ => ([], [])
  | _, [] => ([], [])
  | fuel + 1, x :: q =>
    let p := poll cl (x :: q)
    let r := drainAux cl fuel p.2
    (p.1 :: r.1, countOf cl p.1 :: r.2)

/-- The `for !IsEmpty()` drain of `GetTop` (`src/unnamed/part_000` lines
107-111). -/
def drainPQ (cl : List (Int × Int)) (q : List Int) : List Int × List Int :=
  drainAux cl q.length q

namespace KHHCountMinSketch

/-- `KHHCountMinSketch.GetTop` from `src/unnamed/part_000` lines 101-113:
if `topcent` is already set (not `nil`), return it with the sketch
unchanged — a repeated call is served from the cache; otherwise drain the
priority queue (which the loop leaves empty), recording each polled label
and its `countlist` count, and cache both. -/
def GetTop (s : KHHCountMinSketch) : List Int × KHHCountMinSketch :=
  match s.topcent with
  | some tc => (tc, s)
  | none =>
    let d := drainPQ s.countlist s.priorityQueue
    (d.1, { s with topcent := some d.1, counts := some d.2, priorityQueue := [] })

end KHHCountMinSketch

/-- Iterate `AddLong` over a list of `(item, count)` pairs, propagating a
panic (`none`) and dropping the returned estimates. -/
def runAddLongs : KHHCountMinSketch → List (Int × Int) → Option KHHCountMinSketch
  | s, [] => some s
  | s, (it, c) :: rest =>
    match KHHCountMinSketch.AddLong s it c with
    | none => none
    | some (_, s1) => runAddLongs s1 rest

/-- Iterate `Add` over a list of labels, propagating a panic. -/
def runAdds : KHHCountMinSketch → List Int → Option KHHCountMinSketch
  | s, [] => some s
  | s, e :: rest =>
    match KHHCountMinSketch.Add s e with
    | none => none
    | some s1 => runAdds s1 rest

/-- The total count carried by a list of `(item, count)` pairs. -/
def opsSum : List (Int × Int) → Int
  | [] => 0
  | (_, c) :: rest => c + opsSum rest

/-- The true total count added for item `x` by a list of `(item, count)`
pairs. -/
def trueCount (x : Int) : List (Int × Int) → Int
  | [] => 0
  | (y, c) :: rest => (if y = x then c else 0) + trueCount x rest

/-- A concrete working sketch (two rows, width 8, hash coefficients
`[3, 5]`, zero table, capacity `k = 0`) used to instantiate theorems with
hypotheses at a concrete input. -/
def sketch0 : KHHCountMinSketch where
  depth := 2
  width := 8
  table := fun _ _ => 0
  hashA := [3, 5]
  size := 0
  priorityQueue := []
  k := 0
  items := []
  countlist := []
  count := 0
  counts := none
  topcent := none

/-- A concrete sketch whose queue holds labels `4` (count 2) and `9`
(count 1) and whose `topcent` cache is unset, used to instantiate the
`GetTop` theorems. -/
def sketchQ : KHHCountMinSketch where
  depth := 2
  width := 8
  table := fun _ _ => 0
  hashA := [3, 5]
  size := 3
  priorityQueue := [4, 9]
  k := 5
  items := [(4, 4), (9, 9)]
  countlist := [(4, 2), (9, 1)]
  count := 0
  counts := none
  topcent := none

/-- Modelled from the spec: `types.Centroid` is not under `src/`; spec
§4.5 gives a centroid "a d-vector sum, a count, and an associated label
set", `update(v)` adding `v` to the running mean.  Since the claims
concern which vectors are added, the centroid records its label set and
the sequence of vectors added to it. -/
structure Centroid (V : Type) where
  ids : List Int
  updates : List V
deriving DecidableEq

/-- Modelled from the spec: `defaults.NewCentroid(dim, id)` creates the
centroid for one surviving top label, with label set `{id}` and no
updates yet. -/
def NewCentroid (V : Type) (id : Int) : Centroid V :=
  { ids := [id], updates := [] }

/-- One iteration of the vector loop of `Simple.Reduce`
(`src/unnamed/part_001` lines 62-69): for each centroid, scan
`for h := range hash` — `h` ranges over the INDICES `0 .. len-1` of the
label slice, not over the labels — and update the centroid with the
current vector at the first index contained in its label set.  The
`break` leaves only the inner loop, so every matching centroid is
updated. -/
def reduceVec {V : Type} (cents : List (Centroid V)) (hs : List Int) (v : V) :
    List (Centroid V) :=
  cents.map fun c =>
    if (List.range hs.length).any (fun h => c.ids.contains ((h : Nat) : Int))
    then { c with updates := c.updates ++ [v] } else c

/-- The vector loop of `Simple.Reduce` (`src/unnamed/part_001` lines
60-71): `cur` holds the vector fetched last; the loop runs only while the
iterator still has a next element, computes the hash stream of `cur`,
updates the centroids, then fetches the next vector — so the final vector
is fetched but never processed. -/
def reduceLoop {V : Type} (hashStream : V → Nat → List Int) (b : Nat) :
    List (Centroid V) → V → List V → List (Centroid V)
  | cents, _, [] => cents
  | cents, cur, v :: rest =>
    reduceLoop hashStream b (reduceVec cents (hashStream cur b) cur) v rest

/-- `Simple.Reduce` from `src/unnamed/part_001` lines 44-76, parametric
in the LSH stream function (Modelled from the spec: the `defaults` and
`lsh` packages are not under `src/`; `hashStream v b` stands for
`lshfunc.LSHHashStream(v, b)`): if the iterator is empty, return no
centroids; otherwise fetch the first vector, build one centroid per
previous top id, and run the vector loop. -/
def Reduce {V : Type} (hashStream : V → Nat → List Int) (b : Nat)
    (topIDs : List Int) (vecs : List V) : List (Centroid V) :=
  match vecs with
  | [] => []
  | v :: rest =>
    reduceLoop hashStream b (topIDs.map fun id => NewCentroid V id) v rest

/-- The `RandomProjection` struct of `src/projection/rp/rp.go`: per
output row, `M` holds the indices carrying `-1` entries and `P` those
carrying `+1`; `n` is the input dimension, `t` the projected one. -/
structure RandomProjection where
  M : List (List Nat)
  P : List (List Nat)
  n : Nat
  t : Nat

/-- The body of one iteration of the inner loop of `New` (`rp.go` lines
29-36): draw `rM` and `rP`; `rM == 0` appends `j` to the `-1` list, else
`rP == 0` appends `j` to the `+1` list. -/
def rowStep (rM rP : Nat → Nat) (acc : List Nat × List Nat) (j : Nat) :
    List Nat × List Nat :=
  if rM j = 0 then (acc.1 ++ [j], acc.2)
  else if rP j = 0 then (acc.1, acc.2 ++ [j])
  else acc

/-- One row of `New` (`rp.go` lines 27-45): `orderedM` and `orderedP` are
created by `make([]int, n/6)` — length `n/6`, zero-filled — and the
selected indices are then APPENDED behind that zero prefix.  The copies
`tmpM` and `tmpP` are element-for-element identical to the originals. -/
def buildRow (n : Nat) (rM rP : Nat → Nat) : List Nat × List Nat :=
  (List.range n).foldl (rowStep rM rP)
    (List.replicate (n / 6) 0, List.replicate (n / 6) 0)

/-- `New` from `rp.go` lines 22-54.  The seeded generator is modelled as
the stream `rng` of its successive `Intn(6)` draws: iteration `j` of row
`i` draws `rM = rng (2*(i*n+j))` and then `rP = rng (2*(i*n+j)+1)`,
matching the source's two draws per iteration in order. -/
def rpNew (n t : Nat) (rng : Nat → Nat) : RandomProjection where
  M := (List.range t).map fun i =>
    (buildRow n (fun j => rng (2 * (i * n + j))) (fun j => rng (2 * (i * n + j) + 1))).1
  P := (List.range t).map fun i =>
    (buildRow n (fun j => rng (2 * (i * n + j))) (fun j => rng (2 * (i * n + j) + 1))).2
  n := n
  t := t

/-- The scaling factor `math.Sqrt(3 / float64(t))` of `Project`. -/
noncomputable def rpScale (t : Nat) : ℝ :=
  Real.sqrt (3 / (t : ℝ))

/-- `RandomProjection.Project` from `rp.go` lines 61-76, with `float64`
arithmetic modelled over `ℝ`: row `i` starts from `0`, subtracts
`v[val] * scale` over `M[i]`, then adds `v[val] * scale` over `P[i]`. -/
noncomputable def rpProject (rp : RandomProjection) (v : Nat → ℝ) : List ℝ :=
  (List.range rp.t).map fun i =>
    (rp.P.getD i []).foldl (fun su val => su + v val * rpScale rp.t)
      ((rp.M.getD i []).foldl (fun su val => su - v val * rpScale rp.t) 0)

/-- The canonical basis vector `e_j` of the input space. -/
def basis (j : Nat) : Nat → ℝ :=
  fun m => if m = j then 1 else 0

namespace KHHCountMinSketch

/-- Updating the table of a sketch does not change where items hash. -/
theorem hashOf_table_update (s : KHHCountMinSketch) (f : Nat → Nat → Int)
    (item : Int) (i : Nat) :
    hashOf { s with table := f } item i = hashOf s item i := rfl

/-- `Hash` succeeds, returning the bucket `hashOf`, whenever the row index
is within `hashA` and the width is positive. -/
theorem Hash_eq_some (s : KHHCountMinSketch) (item : Int) (i : Nat)
    (hi : i < s.hashA.length) (hw : 0 < s.width) :
    Hash s item i = some (hashOf s item i) := by
  unfold Hash hashOf
  rw [dif_pos ⟨hi, hw⟩, List.getD_eq_getElem _ _ hi, List.get_eq_getElem]

/-- Characterisation of the row loop of `AddLong`: it succeeds, touches
exactly the cells `(a, hashOf item a)` for `a ∈ [i, i + fuel)`, wrapping
in the added count, and returns the minimum of `minv` and the freshly
incremented counters. -/
theorem rowsLoop_spec (item cnt : Int) :
    ∀ (fuel i : Nat) (minv : Int) (s : KHHCountMinSketch),
    i + fuel ≤ s.hashA.length → 0 < s.width →
    ∃ minv' s',
      rowsLoop item cnt fuel i minv s = some (minv', s') ∧
      s'.depth = s.depth ∧ s'.width = s.width ∧ s'.hashA = s.hashA ∧
      s'.size = s.size ∧ s'.priorityQueue = s.priorityQueue ∧ s'.k = s.k ∧
      s'.items = s.items ∧ s'.countlist = s.countlist ∧ s'.count = s.count ∧
      s'.counts = s.counts ∧ s'.topcent = s.topcent ∧
      (∀ a b, s'.table a b =
        if i ≤ a ∧ a < i + fuel ∧ b = hashOf s item a
        then wrap64 (s.table a b + cnt) else s.table a b) ∧
      minv' ≤ minv ∧
      (∀ r, i ≤ r → r < i + fuel → minv' ≤ wrap64 (s.table r (hashOf s item r) + cnt)) ∧
      (minv' = minv ∨ ∃ r, i ≤ r ∧ r < i + fuel ∧
        minv' = wrap64 (s.table r (hashOf s item r) + cnt)) := by
  intro fuel
  induction fuel with
  | zero =>
    intro i minv s _ _
    refine ⟨minv, s, rfl, rfl, rfl, rfl, rfl, rfl, rfl, rfl, rfl, rfl, rfl, rfl, ?_,
      le_refl _, ?_, Or.inl rfl⟩
    · intro a b
      have : ¬ (i ≤ a ∧ a < i + 0 ∧ b = hashOf s item a) := by
        rintro ⟨h1, h2, _⟩; omega
      rw [if_neg this]
    · intro r h1 h2; omega
  | succ fuel ih =>
    intro i minv s hlen hw
    have hi : i < s.hashA.length := by omega
    have hhash : Hash s item i = some (hashOf s item i) := Hash_eq_some s item i hi hw
    set j := hashOf s item i with hj
    set t := wrap64 (s.table i j + cnt) with ht
    set s1 : KHHCountMinSketch := { s with table := upd2 s.table i j t } with hs1
    have hstep : rowsLoop item cnt (fuel + 1) i minv s =
        rowsLoop item cnt fuel (i + 1) (if t < minv then t else minv) s1 := by
      rw [rowsLoop, hhash]
    have hlen1 : i + 1 + fuel ≤ s1.hashA.length := by
      show i + 1 + fuel ≤ s.hashA.length; omega
    obtain ⟨minv', s', hrun, hdep, hwid, hha, hsz, hpq, hk, hit, hcl, hcnt, hcts, htc,
        htab, hmle, hmall, hmatt⟩ :=
      ih (i + 1) (if t < minv then t else minv) s1 hlen1 hw
    have hash1 : ∀ a, hashOf s1 item a = hashOf s item a := fun a => rfl
    refine ⟨minv', s', by rw [hstep, hrun], hdep, hwid, hha, hsz, hpq, hk, hit, hcl,
      hcnt, hcts, htc, ?_, ?_, ?_, ?_⟩
    · intro a b
      rw [htab a b, hash1 a]
      by_cases hcond : b = hashOf s item a
      · by_cases hai : a = i
        · have h1 : ¬ (i + 1 ≤ a ∧ a < i + 1 + fuel ∧ b = hashOf s item a) := by
            rintro ⟨u, _, _⟩; omega
          have h2 : i ≤ a ∧ a < i + (fuel + 1) ∧ b = hashOf s item a := by
            exact ⟨by omega, by omega, hcond⟩
          rw [if_neg h1, if_pos h2]
          show upd2 s.table i j t a b = wrap64 (s.table a b + cnt)
          have hbj : b = j := by rw [hcond, hai, hj]
          rw [upd2, if_pos ⟨hai, hbj⟩, ht, hai, hbj]
        · have hs1ab : s1.table a b = s.table a b := by
            show upd2 s.table i j t a b = s.table a b
            rw [upd2, if_neg (by rintro ⟨u, _⟩; exact hai u)]
          by_cases har : i + 1 ≤ a ∧ a < i + 1 + fuel
          · rw [if_pos ⟨har.1, har.2, hcond⟩, if_pos ⟨by omega, by omega, hcond⟩, hs1ab]
          · rw [if_neg (by rintro ⟨u, v, _⟩; exact har ⟨u, v⟩),
              if_neg (by rintro ⟨u, v, _⟩; exact (by omega : False)), hs1ab]
      · rw [if_neg (by rintro ⟨_, _, w⟩; exact hcond w),
          if_neg (by rintro ⟨_, _, w⟩; exact hcond w)]
        show upd2 s.table i j t a b = s.table a b
        rw [upd2]
        by_cases hab : a = i ∧ b = j
        · exact absurd (by rw [hab.2, hj, hab.1]) hcond
        · rw [if_neg hab]
    · have : (if t < minv then t else minv) ≤ minv := by
        split <;> omega
      omega
    · intro r h1 h2
      by_cases hri : r = i
      · have h3 : minv' ≤ (if t < minv then t else minv) := hmle
        have h4 : (if t < minv then t else minv) ≤ t := by split <;> omega
        calc minv' ≤ t := le_trans h3 h4
          _ = wrap64 (s.table r (hashOf s item r) + cnt) := by rw [hri, ht, hj]
      · have h5 := hmall r (by omega) (by omega)
        rw [hash1 r] at h5
        have hs1r : s1.table r (hashOf s item r) = s.table r (hashOf s item r) := by
          show upd2 s.table i j t r (hashOf s item r) = s.table r (hashOf s item r)
          rw [upd2, if_neg (by rintro ⟨u, _⟩; exact hri u)]
        rw [hs1r] at h5
        exact h5
    · rcases hmatt with h | ⟨r, h1, h2, h3⟩
      · by_cases htm : t < minv
        · refine Or.inr ⟨i, le_refl i, by omega, ?_⟩
          rw [h, if_pos htm, ht, hj]
        · left; rw [h, if_neg htm]
      · refine Or.inr ⟨r, by omega, by omega, ?_⟩
        rw [hash1 r] at h3
        have hs1r : s1.table r (hashOf s item r) = s.table r (hashOf s item r) := by
          show upd2 s.table i j t r (hashOf s item r) = s.table r (hashOf s item r)
          rw [upd2, if_neg (by rintro ⟨u, _⟩; omega)]
        rw [hs1r] at h3
        exact h3

/-- Characterisation of `AddLong` on a sketch whose `hashA` covers its
`depth` rows: it succeeds, increments (with `int64` wrap) exactly the cell
`(a, hashOf item a)` of every row `a < depth`, adds `cnt` to `size`, and
returns the minimum across the freshly incremented counters of all rows. -/
theorem AddLong_spec (s : KHHCountMinSketch) (item cnt : Int)
    (hd : 1 ≤ s.depth) (hh : s.depth ≤ s.hashA.length) (hw : 0 < s.width) :
    ∃ est s',
      AddLong s item cnt = some (est, s') ∧
      s'.depth = s.depth ∧ s'.width = s.width ∧ s'.hashA = s.hashA ∧
      s'.size = wrap64 (s.size + cnt) ∧
      s'.priorityQueue = s.priorityQueue ∧ s'.k = s.k ∧
      s'.items = s.items ∧ s'.countlist = s.countlist ∧ s'.count = s.count ∧
      s'.counts = s.counts ∧ s'.topcent = s.topcent ∧
      (∀ a b, s'.table a b =
        if a < s.depth ∧ b = hashOf s item a
        then wrap64 (s.table a b + cnt) else s.table a b) ∧
      (∀ r, r < s.depth → est ≤ wrap64 (s.table r (hashOf s item r) + cnt)) ∧
      (∃ r, r < s.depth ∧ est = wrap64 (s.table r (hashOf s item r) + cnt)) := by
  have h0 : (0 : Nat) < s.hashA.length := by omega
  have hhash : Hash s item 0 = some (hashOf s item 0) := Hash_eq_some s item 0 h0 hw
  set j := hashOf s item 0 with hj
  set t := wrap64 (s.table 0 j + cnt) with ht
  set s1 : KHHCountMinSketch := { s with table := upd2 s.table 0 j t } with hs1
  have hlen1 : 1 + (s.depth - 1) ≤ s1.hashA.length := by
    show 1 + (s.depth - 1) ≤ s.hashA.length; omega
  obtain ⟨minv', s', hrun, hdep, hwid, hha, hsz, hpq, hk, hit, hcl, hcnt, hcts, htc,
      htab, hmle, hmall, hmatt⟩ :=
    rowsLoop_spec item cnt (s.depth - 1) 1 t s1 hlen1 hw
  have hash1 : ∀ a, hashOf s1 item a = hashOf s item a := fun a => rfl
  have hstep : AddLong s item cnt =
      some (minv', { s' with size := wrap64 (s'.size + cnt) }) := by
    rw [AddLong, hhash]
    show (match rowsLoop item cnt (s.depth - 1) 1 t s1 with
      | none => none
      | some (minv, s1) => some (minv, { s1 with size := wrap64 (s1.size + cnt) })) =
      some (minv', { s' with size := wrap64 (s'.size + cnt) })
    rw [hrun]
  have hs1tab : ∀ a b, s1.table a b = if a = 0 ∧ b = j then t else s.table a b := by
    intro a b; rfl
  refine ⟨minv', { s' with size := wrap64 (s'.size + cnt) }, hstep, hdep, hwid, hha,
    by show wrap64 (s'.size + cnt) = wrap64 (s.size + cnt); rw [hsz],
    hpq, hk, hit, hcl, hcnt, hcts, htc, ?_, ?_, ?_⟩
  · intro a b
    show s'.table a b = _
    rw [htab a b, hash1 a]
    by_cases hcond : b = hashOf s item a
    · by_cases ha0 : a = 0
      · have h1 : ¬ (1 ≤ a ∧ a < 1 + (s.depth - 1) ∧ b = hashOf s item a) := by
          rintro ⟨u, _, _⟩; omega
        have h2 : a < s.depth ∧ b = hashOf s item a := ⟨by omega, hcond⟩
        rw [if_neg h1, if_pos h2, hs1tab a b,
          if_pos ⟨ha0, by rw [hcond, ha0, hj]⟩, ht]
        rw [ha0]
        congr 2
        rw [hcond, ha0, hj]
      · have hs1ab : s1.table a b = s.table a b := by
          rw [hs1tab a b, if_neg (by rintro ⟨u, _⟩; exact ha0 u)]
        by_cases har : a < s.depth
        · rw [if_pos ⟨by omega, by omega, hcond⟩, if_pos ⟨har, hcond⟩, hs1ab]
        · rw [if_neg (by rintro ⟨_, v, _⟩; exact har (by omega)),
            if_neg (by rintro ⟨v, _⟩; exact har v), hs1ab]
    · rw [if_neg (by rintro ⟨_, _, w⟩; exact hcond w),
        if_neg (by rintro ⟨_, w⟩; exact hcond w), hs1tab a b]
      by_cases hab : a = 0 ∧ b = j
      · exact absurd (by rw [hab.2, hj, hab.1]) hcond
      · rw [if_neg hab]
  · intro r hr
    by_cases hr0 : r = 0
    · calc minv' ≤ t := hmle
        _ = wrap64 (s.table r (hashOf s item r) + cnt) := by rw [hr0, ht, hj]
    · have h5 := hmall r (by omega) (by omega)
      rw [hash1 r] at h5
      have hs1r : s1.table r (hashOf s item r) = s.table r (hashOf s item r) := by
        rw [hs1tab, if_neg (by rintro ⟨u, _⟩; exact hr0 u)]
      rw [hs1r] at h5
      exact h5
  · rcases hmatt with h | ⟨r, h1, h2, h3⟩
    · exact ⟨0, by omega, by rw [h, ht, hj]⟩
    · refine ⟨r, by omega, ?_⟩
      rw [hash1 r] at h3
      have hs1r : s1.table r (hashOf s item r) = s.table r (hashOf s item r) := by
        rw [hs1tab, if_neg (by rintro ⟨u, _⟩; omega)]
      rw [hs1r] at h3
      exact h3

end KHHCountMinSketch

open KHHCountMinSketch

/-- C1: on every sketch on which the operation completes (at least one
row, hash coefficients for every row, positive width), for every item and
every count, `AddLong` increments `table[i][h_i(item)]` by the count
(with Go's wrapping `int64` addition) for every row `i < depth`, leaves
every other cell unchanged, and returns the minimum across all rows of
`table[i][h_i(item)]` taken after the increments — the CMS estimate after
the update. -/
theorem claim_C1_addLong_min (s : KHHCountMinSketch) (item cnt : Int)
    (hd : 1 ≤ s.depth) (hh : s.depth ≤ s.hashA.length) (hw : 0 < s.width) :
    ∃ est s', AddLong s item cnt = some (est, s') ∧
      (∀ i, i < s.depth →
        s'.table i (hashOf s item i) = wrap64 (s.table i (hashOf s item i) + cnt)) ∧
      (∀ a b, ¬ (a < s.depth ∧ b = hashOf s item a) → s'.table a b = s.table a b) ∧
      (∀ i, i < s.depth → est ≤ s'.table i (hashOf s item i)) ∧
      (∃ i, i < s.depth ∧ est = s'.table i (hashOf s item i)) := by
  obtain ⟨est, s', h1, _, _, _, _, _, _, _, _, _, _, _, htab, hmin, hatt⟩ :=
    AddLong_spec s item cnt hd hh hw
  refine ⟨est, s', h1, ?_, ?_, ?_, ?_⟩
  · intro i hi
    rw [htab, if_pos ⟨hi, rfl⟩]
  · intro a b hnab
    rw [htab, if_neg hnab]
  · intro i hi
    rw [htab, if_pos ⟨hi, rfl⟩]
    exact hmin i hi
  · obtain ⟨r, hr, he⟩ := hatt
    refine ⟨r, hr, ?_⟩
    rw [htab, if_pos ⟨hr, rfl⟩]
    exact he

/-- Witness for C1 at the concrete sketch `sketch0`, item `7`, count `1`. -/
theorem claim_C1_witness :
    ∃ est s', AddLong sketch0 7 1 = some (est, s') ∧
      (∀ i, i < sketch0.depth →
        s'.table i (hashOf sketch0 7 i) =
          wrap64 (sketch0.table i (hashOf sketch0 7 i) + 1)) ∧
      (∀ a b, ¬ (a < sketch0.depth ∧ b = hashOf sketch0 7 a) →
        s'.table a b = sketch0.table a b) ∧
      (∀ i, i < sketch0.depth → est ≤ s'.table i (hashOf sketch0 7 i)) ∧
      (∃ i, i < sketch0.depth ∧ est = s'.table i (hashOf sketch0 7 i)) :=
  claim_C1_addLong_min sketch0 7 1 (by decide) (by decide) (by decide)

/-- `wrap64` is the identity on values already in the `int64` range. -/
theorem wrap64_eq_self (z : Int) (h1 : -2 ^ 63 ≤ z) (h2 : z < 2 ^ 63) :
    wrap64 z = z := by
  have e63 : (2 : Int) ^ 63 = 9223372036854775808 := by norm_num
  have e64 : (2 : Int) ^ 64 = 18446744073709551616 := by norm_num
  rw [e63] at h1 h2
  unfold wrap64
  rw [e63, e64]
  omega

/-- Sums of nonnegative counts are nonnegative. -/
theorem opsSum_nonneg :
    ∀ (ops : List (Int × Int)), (∀ p ∈ ops, 0 ≤ p.2) → 0 ≤ opsSum ops
  | [], _ => le_refl 0
  | (y, c) :: rest, h => by
    have h1 : (0 : Int) ≤ c := h (y, c) (List.mem_cons_self _ _)
    have h2 : 0 ≤ opsSum rest :=
      opsSum_nonneg rest (fun p hp => h p (List.mem_cons_of_mem _ hp))
    show 0 ≤ c + opsSum rest
    omega

/-- `hashOf` depends only on the `hashA` and `width` fields. -/
theorem hashOf_congr (s s' : KHHCountMinSketch)
    (h1 : s'.hashA = s.hashA) (h2 : s'.width = s.width) (x : Int) (i : Nat) :
    hashOf s' x i = hashOf s x i := by
  unfold hashOf
  rw [h1, h2]

/-- Running a list of `add_long` operations with nonnegative,
non-overflowing counts on a working sketch succeeds; every table counter
only grows, grows by at most the total added count, and the counter of
`x`'s cell in each row grows by at least the total count added for `x`. -/
theorem runAddLongs_spec :
    ∀ (ops : List (Int × Int)) (s : KHHCountMinSketch),
    1 ≤ s.depth → s.depth ≤ s.hashA.length → 0 < s.width →
    (∀ p ∈ ops, 0 ≤ p.2) →
    (∀ i j, 0 ≤ s.table i j ∧ s.table i j + opsSum ops < 2 ^ 63) →
    ∃ s1, runAddLongs s ops = some s1 ∧
      s1.depth = s.depth ∧ s1.hashA = s.hashA ∧ s1.width = s.width ∧
      (∀ i j, s.table i j ≤ s1.table i j ∧ s1.table i j ≤ s.table i j + opsSum ops) ∧
      (∀ x i, i < s.depth →
        s.table i (hashOf s x i) + trueCount x ops ≤ s1.table i (hashOf s x i)) := by
  intro ops
  induction ops with
  | nil =>
    intro s _ _ _ _ _
    refine ⟨s, rfl, rfl, rfl, rfl, ?_, ?_⟩
    · intro i j
      show s.table i j ≤ s.table i j ∧ s.table i j ≤ s.table i j + opsSum []
      unfold opsSum
      omega
    · intro x i _
      show s.table i (hashOf s x i) + trueCount x [] ≤ s.table i (hashOf s x i)
      unfold trueCount
      omega
  | cons p rest ih =>
    obtain ⟨y, c⟩ := p
    intro s hd hh hw hc hb
    have hc0 : (0 : Int) ≤ c := hc (y, c) (List.mem_cons_self _ _)
    have hcrest : ∀ q ∈ rest, (0 : Int) ≤ q.2 :=
      fun q hq => hc q (List.mem_cons_of_mem _ hq)
    have hrest0 : 0 ≤ opsSum rest := opsSum_nonneg rest hcrest
    have hsum : opsSum ((y, c) :: rest) = c + opsSum rest := rfl
    obtain ⟨est, s', hAdd, hdep, hwid, hha, _, _, _, _, _, _, _, _, htab, _, _⟩ :=
      AddLong_spec s y c hd hh hw
    have htab2 : ∀ a b, s'.table a b =
        if a < s.depth ∧ b = hashOf s y a then s.table a b + c else s.table a b := by
      intro a b
      rw [htab a b]
      by_cases hcase : a < s.depth ∧ b = hashOf s y a
      · rw [if_pos hcase, if_pos hcase, wrap64_eq_self]
        · have := (hb a b).1
          omega
        · have := (hb a b).2
          rw [hsum] at this
          omega
      · rw [if_neg hcase, if_neg hcase]
    obtain ⟨s1, hrun1, hdep1, hha1, hwid1, hsand1, hx1⟩ :=
      ih s' (by omega) (by rw [hha, hdep]; exact hh) (by omega) hcrest
        (by
          intro i j
          rw [htab2 i j]
          have hb1 := (hb i j).1
          have hb2 := (hb i j).2
          rw [hsum] at hb2
          by_cases hcase : i < s.depth ∧ j = hashOf s y i
          · rw [if_pos hcase]; omega
          · rw [if_neg hcase]; omega)
    have hstep : runAddLongs s ((y, c) :: rest) = runAddLongs s' rest := by
      rw [show runAddLongs s ((y, c) :: rest) = (match AddLong s y c with
        | none => none
        | some (_, s1) => runAddLongs s1 rest) from rfl, hAdd]
    refine ⟨s1, by rw [hstep, hrun1], by omega, by rw [hha1, hha], by omega, ?_, ?_⟩
    · intro i j
      have h1 := hsand1 i j
      rw [htab2 i j] at h1
      rw [hsum]
      by_cases hcase : i < s.depth ∧ j = hashOf s y i
      · rw [if_pos hcase] at h1; omega
      · rw [if_neg hcase] at h1; omega
    · intro x i hi
      have hcongr : ∀ z r, hashOf s' z r = hashOf s z r :=
        fun z r => hashOf_congr s s' hha hwid z r
      have h1 := hx1 x i (by omega)
      rw [hcongr x i] at h1
      rw [htab2 i (hashOf s x i)] at h1
      have htc : trueCount x ((y, c) :: rest) =
          (if y = x then c else 0) + trueCount x rest := rfl
      rw [htc]
      by_cases hyx : y = x
      · have hcell : i < s.depth ∧ hashOf s x i = hashOf s y i := ⟨hi, by rw [hyx]⟩
        rw [if_pos hcell] at h1
        rw [if_pos hyx]
        omega
      · rw [if_neg hyx]
        by_cases hcell : i < s.depth ∧ hashOf s x i = hashOf s y i
        · rw [if_pos hcell] at h1
          omega
        · rw [if_neg hcell] at h1
          omega

/-- C2 as stated is refuted at a concrete input: on a literally fresh
sketch returned by the constructor, the very first `add_long` call
panics on the nil `hashA` (see C4), so no estimate is returned at all —
in particular no estimate bounded below by the true count. -/
theorem claim_C2_counterexample :
    Option.map Prod.fst (Option.bind (runAddLongs (NewKHHCountMinSketch 2 8 5) [])
      (fun s1 => AddLong s1 7 1)) = none := rfl

/-- C2 (amended): starting from a sketch with a zeroed table whose
`hashA` covers its rows and whose width is positive (a literally fresh
sketch has nil `hashA` and panics instead — see the counterexample and
C4), for every sequence of `add_long` calls with nonnegative counts whose
total does not overflow `int64`, the estimate returned by a further
`add_long` for `x` is at least the total count added for `x` so far:
all counters are nonnegative and only ever incremented, so the CMS
estimate never underestimates the true count. -/
theorem claim_C2_amended (s : KHHCountMinSketch) (ops : List (Int × Int))
    (x c est : Int)
    (hd : 1 ≤ s.depth) (hh : s.depth ≤ s.hashA.length) (hw : 0 < s.width)
    (h0 : ∀ i j, s.table i j = 0)
    (hc : ∀ p ∈ ops, 0 ≤ p.2) (hcx : 0 ≤ c)
    (hov : opsSum ops + c < 2 ^ 63)
    (hrun : Option.map Prod.fst (Option.bind (runAddLongs s ops)
      (fun s1 => AddLong s1 x c)) = some est) :
    trueCount x ops + c ≤ est := by
  have hso : 0 ≤ opsSum ops := opsSum_nonneg ops hc
  obtain ⟨s1, hrun1, hdep1, hha1, hwid1, hsand1, hx1⟩ :=
    runAddLongs_spec ops s hd hh hw hc
      (by
        intro i j
        rw [h0 i j]
        omega)
  obtain ⟨est', s2, hAdd, _, _, _, _, _, _, _, _, _, _, _, _, _, hatt⟩ :=
    AddLong_spec s1 x c (by omega) (by rw [hha1, hdep1]; exact hh) (by omega)
  rw [hrun1] at hrun
  have hrun2 : Option.map Prod.fst (AddLong s1 x c) = some est := hrun
  rw [hAdd] at hrun2
  have hest : est = est' := by
    rw [show Option.map Prod.fst (some (est', s2)) = some est' from rfl] at hrun2
    exact (Option.some_inj.mp hrun2).symm
  obtain ⟨r, hr, he⟩ := hatt
  have hcongr : hashOf s1 x r = hashOf s x r := hashOf_congr s s1 hha1 hwid1 x r
  have hlow := hx1 x r (by omega)
  have hsand := hsand1 r (hashOf s x r)
  rw [h0 r (hashOf s x r)] at hlow hsand
  rw [hcongr] at he
  have hv : wrap64 (s1.table r (hashOf s x r) + c) = s1.table r (hashOf s x r) + c := by
    apply wrap64_eq_self
    · omega
    · omega
  rw [hv] at he
  omega

/-- Witness for C2 (amended) at `sketch0` with one prior `add_long` of
count 2 for item 5 followed by an `add_long` of count 1 for item 5:
the returned estimate 3 dominates the true count 3. -/
theorem claim_C2_witness :
    trueCount 5 [((5 : Int), (2 : Int))] + 1 ≤ 3 :=
  claim_C2_amended sketch0 [(5, 2)] 5 1 3 (by decide) (by decide) (by decide)
    (fun i j => rfl) (by decide) (by decide) (by decide) (by decide)

/-- C4: the constructor never assigns the locally generated hash
coefficients to the result, so for every depth, width and `m` the
returned sketch's `hashA` is nil; consequently every `Hash` call indexes
an empty slice and hits the panic branch, and therefore every `AddLong`
and every `Add` on a freshly constructed sketch panics as well, for all
inputs. -/
theorem claim_C4_nil_hashA (d w m : Nat) (item e cnt : Int) (i : Nat) :
    (NewKHHCountMinSketch d w m).hashA = [] ∧
    Hash (NewKHHCountMinSketch d w m) item i = none ∧
    AddLong (NewKHHCountMinSketch d w m) item cnt = none ∧
    KHHCountMinSketch.Add (NewKHHCountMinSketch d w m) e = none := by
  have hnone : ∀ (it : Int) (ii : Nat), Hash (NewKHHCountMinSketch d w m) it ii = none := by
    intro it ii
    unfold Hash
    rw [dif_neg]
    rintro ⟨h1, _⟩
    exact Nat.not_lt_zero ii h1
  have hAL : ∀ (it cnt2 : Int), AddLong (NewKHHCountMinSketch d w m) it cnt2 = none := by
    intro it cnt2
    unfold AddLong
    rw [hnone it 0]
  have hAI : addInsert (NewKHHCountMinSketch d w m) e = none := by
    unfold addInsert
    rw [hAL (HashCode e) 1]
  refine ⟨rfl, hnone item i, hAL item cnt, ?_⟩
  unfold KHHCountMinSketch.Add
  rw [hAI]

/-- The capacity computed for a target of `1` cluster is `⌊1 · ln 1⌋ = 0`. -/
theorem kPrime_one : kPrime 1 = 0 := by
  unfold kPrime
  norm_num [Real.log_one]

/-- The capacity computed for a target of `2` clusters is `⌊2 · ln 2⌋ = 1`. -/
theorem kPrime_two : kPrime 2 = 1 := by
  have hgt := Real.log_two_gt_d9
  have hlt := Real.log_two_lt_d9
  have hc : ((2 : ℕ) : ℝ) = (2 : ℝ) := by norm_num
  unfold kPrime
  rw [hc, Nat.floor_eq_iff (by nlinarith)]
  have hc1 : ((1 : ℕ) : ℝ) = (1 : ℝ) := by norm_num
  rw [hc1]
  constructor
  · nlinarith
  · nlinarith

/-- The ceiling the spec prescribes evaluates to `2` at `k = 2`. -/
theorem ceil_two_log_two : Nat.ceil ((2 : ℝ) * Real.log 2) = 2 := by
  have hgt := Real.log_two_gt_d9
  have hlt := Real.log_two_lt_d9
  rw [Nat.ceil_eq_iff (by norm_num)]
  have hc1 : ((2 - 1 : ℕ) : ℝ) = (1 : ℝ) := by norm_num
  have hc2 : ((2 : ℕ) : ℝ) = (2 : ℝ) := by norm_num
  rw [hc1, hc2]
  constructor
  · nlinarith
  · nlinarith

/-- C5 is refuted at `k = 1`: `ln 1 = 0`, and the constructor stores the
truncation `int(1 · ln 1) = 0` with no clamping, so the sketch's top-K
capacity is `0`, not at least `1`. -/
theorem claim_C5_counterexample : ¬ (1 ≤ (NewKHHCountMinSketch 2 8 1).k) := by
  rw [show (NewKHHCountMinSketch 2 8 1).k = kPrime 1 from rfl, kPrime_one]
  decide

/-- C5 (amended): the sketch's top-K capacity is the Go truncation
`⌊k · ln k⌋`, not the ceiling of the claim: for `k = 1` it is `0` — no
clamping to `1` occurs — and for `k = 2` it is `1`, whereas
`⌈2 · ln 2⌉ = 2`. -/
theorem claim_C5_amended :
    (NewKHHCountMinSketch 2 8 1).k = 0 ∧
    (NewKHHCountMinSketch 2 8 2).k = 1 ∧
    Nat.ceil ((2 : ℝ) * Real.log 2) = 2 ∧
    ∀ d w m, (NewKHHCountMinSketch d w m).k = Nat.floor ((m : ℝ) * Real.log m) :=
  ⟨by rw [show (NewKHHCountMinSketch 2 8 1).k = kPrime 1 from rfl, kPrime_one],
   by rw [show (NewKHHCountMinSketch 2 8 2).k = kPrime 2 from rfl, kPrime_two],
   ceil_two_log_two,
   fun d w m => rfl⟩

/-- `poll` on a nonempty queue removes exactly one element. -/
theorem poll_length (cl : List (Int × Int)) :
    ∀ (q : List Int), q ≠ [] → (poll cl q).2.length + 1 = q.length := by
  intro q
  induction q with
  | nil => intro h; exact absurd rfl h
  | cons x rest ih =>
    intro _
    cases rest with
    | nil => rfl
    | cons y q2 =>
      have ih2 := ih (by simp)
      simp only [List.length_cons] at ih2
      show (poll cl (x :: y :: q2)).2.length + 1 = (x :: y :: q2).length
      unfold poll
      dsimp only
      split
      · simp
      · simp only [List.length_cons]
        omega

/-- Looking up the erased key fails. -/
theorem mapLookup_mapErase_self :
    ∀ (m : List (Int × Int)) (key : Int), mapLookup (mapErase m key) key = none := by
  intro m key
  induction m with
  | nil => rfl
  | cons p rest ih =>
    obtain ⟨a, b⟩ := p
    unfold mapErase
    by_cases h : a = key
    · rw [if_pos h]
      exact ih
    · rw [if_neg h]
      unfold mapLookup
      rw [if_neg h]
      exact ih

/-- Erasing one key leaves lookups of other keys unchanged. -/
theorem mapLookup_mapErase_ne :
    ∀ (m : List (Int × Int)) (key k2 : Int), k2 ≠ key →
    mapLookup (mapErase m key) k2 = mapLookup m k2 := by
  intro m key k2 hne
  induction m with
  | nil => rfl
  | cons p rest ih =>
    obtain ⟨a, b⟩ := p
    show mapLookup (if a = key then mapErase rest key else (a, b) :: mapErase rest key) k2 =
      (if a = k2 then some b else mapLookup rest k2)
    by_cases h : a = key
    · rw [if_pos h, if_neg (fun u => hne (u.symm.trans h))]
      exact ih
    · rw [if_neg h]
      show (if a = k2 then some b else mapLookup (mapErase rest key) k2) =
        (if a = k2 then some b else mapLookup rest k2)
      by_cases h2 : a = k2
      · rw [if_pos h2, if_pos h2]
      · rw [if_neg h2, if_neg h2]
        exact ih

/-- Looking up the inserted key returns the inserted value. -/
theorem mapLookup_mapInsert_self (m : List (Int × Int)) (key v : Int) :
    mapLookup (mapInsert m key v) key = some v := by
  unfold mapInsert mapLookup
  rw [if_pos rfl]

/-- Insertion never removes keys: a key present before stays present. -/
theorem mapLookup_mapInsert_isSome (m : List (Int × Int)) (key v k2 : Int)
    (h : (mapLookup m k2).isSome) :
    (mapLookup (mapInsert m key v) k2).isSome := by
  by_cases hk : key = k2
  · rw [hk, mapLookup_mapInsert_self]
    rfl
  · unfold mapInsert mapLookup
    rw [if_neg hk, mapLookup_mapErase_ne _ _ _ (fun u => hk u.symm)]
    exact h

/-- The row loop only touches the table. -/
theorem rowsLoop_preserves (item cnt : Int) :
    ∀ (fuel i : Nat) (minv minv' : Int) (s s' : KHHCountMinSketch),
    rowsLoop item cnt fuel i minv s = some (minv', s') →
    s'.depth = s.depth ∧ s'.width = s.width ∧ s'.hashA = s.hashA ∧
    s'.size = s.size ∧ s'.priorityQueue = s.priorityQueue ∧ s'.k = s.k ∧
    s'.items = s.items ∧ s'.countlist = s.countlist ∧ s'.count = s.count ∧
    s'.counts = s.counts ∧ s'.topcent = s.topcent := by
  intro fuel
  induction fuel with
  | zero =>
    intro i minv minv' s s' h
    injection h with h2
    injection h2 with h3 h4
    rw [← h4]
    exact ⟨rfl, rfl, rfl, rfl, rfl, rfl, rfl, rfl, rfl, rfl, rfl⟩
  | succ fuel ih =>
    intro i minv minv' s s' h
    unfold rowsLoop at h
    split at h
    · exact absurd h (by simp)
    · rename_i j hj
      dsimp only at h
      exact ih (i + 1) _ minv'
        { s with table := upd2 s.table i j (wrap64 (s.table i j + cnt)) } s' h

/-- `AddLong`, when it succeeds, only changes the table and the size. -/
theorem AddLong_preserves (s s' : KHHCountMinSketch) (item cnt est : Int)
    (h : AddLong s item cnt = some (est, s')) :
    s'.depth = s.depth ∧ s'.width = s.width ∧ s'.hashA = s.hashA ∧
    s'.priorityQueue = s.priorityQueue ∧ s'.k = s.k ∧
    s'.items = s.items ∧ s'.countlist = s.countlist ∧
    s'.counts = s.counts ∧ s'.topcent = s.topcent := by
  unfold AddLong at h
  split at h
  · exact absurd h (by simp)
  · rename_i j hj
    dsimp only at h
    split at h
    · exact absurd h (by simp)
    · rename_i minv s1 hr
      injection h with h2
      injection h2 with h3 h4
      obtain ⟨p1, p2, p3, _, p5, p6, p7, p8, _, p10, p11⟩ :=
        rowsLoop_preserves item cnt (s.depth - 1) 1 _ minv _ s1 hr
      rw [← h4]
      exact ⟨p1, p2, p3, p5, p6, p7, p8, p10, p11⟩

/-- When the insertion phase of `Add` succeeds it keeps `k` and `topcent`,
overwrites the count-map and membership entries of the added label, and
grows the queue by at most one. -/
theorem addInsert_spec (s s1 : KHHCountMinSketch) (e : Int)
    (h : addInsert s e = some s1) :
    s1.k = s.k ∧ s1.topcent = s.topcent ∧
    (∃ c, s1.countlist = mapInsert s.countlist (HashCode e) c) ∧
    s1.items = mapInsert s.items (HashCode e) e ∧
    s1.priorityQueue.length ≤ s.priorityQueue.length + 1 := by
  unfold addInsert at h
  split at h
  · exact absurd h (by simp)
  · rename_i c s2 heq
    obtain ⟨_, _, _, hpq, hk, hit, hcl, _, htc⟩ :=
      AddLong_preserves s s2 (HashCode e) 1 c heq
    split at h
    · injection h with h2
      rw [← h2]
      refine ⟨hk, htc, ⟨c, by rw [hcl]⟩, by rw [hit], ?_⟩
      show (enqueue (dequeue s2.priorityQueue e) e).length ≤ s.priorityQueue.length + 1
      unfold enqueue dequeue
      rw [hpq, List.length_append]
      have hsub := List.Sublist.length_le (List.erase_sublist e s.priorityQueue)
      simp only [List.length_cons, List.length_nil]
      omega
    · injection h with h2
      rw [← h2]
      refine ⟨hk, htc, ⟨c, by rw [hcl]⟩, by rw [hit], ?_⟩
      show (enqueue s2.priorityQueue e).length ≤ s.priorityQueue.length + 1
      unfold enqueue
      rw [hpq, List.length_append]
      simp only [List.length_cons, List.length_nil]
      omega

/-- One `Add` keeps the capacity field and preserves the heap-size bound
`|queue| ≤ k`. -/
theorem Add_heap_le (s s' : KHHCountMinSketch) (e : Int)
    (h : KHHCountMinSketch.Add s e = some s')
    (hinv : s.priorityQueue.length ≤ s.k) :
    s'.priorityQueue.length ≤ s.k ∧ s'.k = s.k := by
  unfold KHHCountMinSketch.Add at h
  split at h
  · exact absurd h (by simp)
  · rename_i s1 heq
    obtain ⟨hk, _, _, _, hlen⟩ := addInsert_spec s s1 e heq
    split at h
    · rename_i hover
      injection h with h2
      rw [← h2]
      dsimp only
      constructor
      · have hne : s1.priorityQueue ≠ [] := by
          intro hnil
          rw [hnil] at hover
          simp at hover
        have hpoll := poll_length s1.countlist s1.priorityQueue hne
        omega
      · exact hk
    · rename_i hnot
      injection h with h2
      rw [← h2]
      exact ⟨by omega, hk⟩

/-- Iterated `Add` preserves the heap-size bound `|queue| ≤ k`. -/
theorem runAdds_heap_le :
    ∀ (ops : List Int) (s s' : KHHCountMinSketch),
    runAdds s ops = some s' → s.priorityQueue.length ≤ s.k →
    s'.priorityQueue.length ≤ s.k ∧ s'.k = s.k := by
  intro ops
  induction ops with
  | nil =>
    intro s s' h hinv
    injection h with h2
    rw [← h2]
    exact ⟨hinv, rfl⟩
  | cons e rest ih =>
    intro s s' h hinv
    unfold runAdds at h
    split at h
    · exact absurd h (by simp)
    · rename_i s1 heq
      obtain ⟨hle, hk⟩ := Add_heap_le s s1 e heq hinv
      obtain ⟨hle2, hk2⟩ := ih s1 s' h (by omega)
      exact ⟨by omega, by omega⟩

/-- C6 is refuted at a concrete input: on the capacity-0 sketch
`sketch0`, `Add 5` inserts label 5 and immediately evicts it — the
membership entry is deleted and the queue is empty, but the evicted
label still has its count-map entry `5 ↦ 1`, because the source only
deletes from `items`. -/
theorem claim_C6_counterexample :
    Option.map (fun s2 => (mapLookup s2.items 5, mapLookup s2.countlist 5,
      s2.priorityQueue)) (KHHCountMinSketch.Add sketch0 5) =
      some (none, some 1, []) := by decide

/-- C6 (amended): whenever the heap size exceeds `k` after insertion, the
minimum-count entry is popped from the heap and deleted from the
membership map, but NOT from the count map: the count map after the add
still holds every key it held before (plus the added label), so an
evicted label retains its count-map entry. -/
theorem claim_C6_amended (s s1 : KHHCountMinSketch) (e : Int)
    (hIns : addInsert s e = some s1)
    (hOver : s1.k < s1.priorityQueue.length) :
    ∃ s2, KHHCountMinSketch.Add s e = some s2 ∧
      s2.priorityQueue = (poll s1.countlist s1.priorityQueue).2 ∧
      s2.items = mapErase s1.items (poll s1.countlist s1.priorityQueue).1 ∧
      mapLookup s2.items (poll s1.countlist s1.priorityQueue).1 = none ∧
      s2.countlist = s1.countlist ∧
      (∀ key v, mapLookup s.countlist key = some v →
        (mapLookup s2.countlist key).isSome) ∧
      (mapLookup s2.countlist (HashCode e)).isSome := by
  have hAdd : KHHCountMinSketch.Add s e = some { s1 with
      priorityQueue := (poll s1.countlist s1.priorityQueue).2,
      items := mapErase s1.items (poll s1.countlist s1.priorityQueue).1 } := by
    unfold KHHCountMinSketch.Add
    rw [hIns]
    dsimp only
    rw [if_pos hOver]
  obtain ⟨hk, htc, ⟨c, hcl⟩, hit, hlen⟩ := addInsert_spec s s1 e hIns
  refine ⟨_, hAdd, rfl, rfl, mapLookup_mapErase_self _ _, rfl, ?_, ?_⟩
  · intro key v hv
    show (mapLookup s1.countlist key).isSome
    rw [hcl]
    exact mapLookup_mapInsert_isSome _ _ _ _ (by rw [hv]; rfl)
  · show (mapLookup s1.countlist (HashCode e)).isSome
    rw [hcl, mapLookup_mapInsert_self]
    rfl

/-- Witness for C6 (amended) at `sketch0` and label `5`: the add
succeeds, the evicted label `5` loses its membership entry but keeps its
count-map entry. -/
theorem claim_C6_witness :
    ∃ s2, KHHCountMinSketch.Add sketch0 5 = some s2 ∧
      mapLookup s2.countlist (HashCode 5) = some 1 ∧
      mapLookup s2.items 5 = none := by
  have hsome : (addInsert sketch0 5).isSome := by decide
  obtain ⟨s1v, hs1v⟩ : ∃ s1v, addInsert sketch0 5 = some s1v := by
    cases ha : addInsert sketch0 5 with
    | none => rw [ha] at hsome; exact absurd hsome (by decide)
    | some v => exact ⟨v, rfl⟩
  have hgetd : (addInsert sketch0 5).getD sketch0 = s1v := by rw [hs1v]; rfl
  obtain ⟨s2, hAdd, hpq, hit, hitNone, hcl, hmono, hsomeE⟩ :=
    claim_C6_amended sketch0 s1v 5 hs1v (by rw [← hgetd]; decide)
  refine ⟨s2, hAdd, ?_, ?_⟩
  · rw [hcl, ← hgetd]
    decide
  · have h5 : (poll s1v.countlist s1v.priorityQueue).1 = 5 := by
      rw [← hgetd]
      decide
    rw [← h5]
    exact hitNone

/-- C7: for every sequence of `add` operations on a sketch constructed
with target `m` (with any value of the never-initialised `hashA` field),
whenever the run completes, the heap size is at most
`⌈m · ln m⌉`; since every prefix of a completed run is itself a completed
run, the bound holds after every operation.  (The code in fact bounds the
heap by the stored capacity `⌊m · ln m⌋ ≤ ⌈m · ln m⌉`.) -/
theorem claim_C7_heap_bound (d w m : Nat) (as : List Int) (ops : List Int)
    (s' : KHHCountMinSketch)
    (h : runAdds { NewKHHCountMinSketch d w m with hashA := as } ops = some s') :
    s'.priorityQueue.length ≤ Nat.ceil ((m : ℝ) * Real.log m) := by
  have h0 : ({ NewKHHCountMinSketch d w m with hashA := as } :
      KHHCountMinSketch).priorityQueue.length ≤
      ({ NewKHHCountMinSketch d w m with hashA := as } : KHHCountMinSketch).k :=
    Nat.zero_le _
  obtain ⟨hle, _⟩ := runAdds_heap_le ops _ s' h h0
  have hkk : ({ NewKHHCountMinSketch d w m with hashA := as } :
      KHHCountMinSketch).k = kPrime m := rfl
  rw [hkk] at hle
  exact le_trans hle (Nat.floor_le_ceil _)

/-- Witness for C7 at `m = 1` with initialised hash coefficients and the
empty operation sequence. -/
theorem claim_C7_witness :
    ({ NewKHHCountMinSketch 2 8 1 with hashA := [3, 5] } :
      KHHCountMinSketch).priorityQueue.length ≤
      Nat.ceil ((1 : ℝ) * Real.log 1) := by
  have h := claim_C7_heap_bound 2 8 1 [3, 5] [] _ rfl
  exact_mod_cast h

/-- The polled label comes from the queue. -/
theorem poll_fst_mem (cl : List (Int × Int)) :
    ∀ (q : List Int), q ≠ [] → (poll cl q).1 ∈ q := by
  intro q
  induction q with
  | nil => intro h; exact absurd rfl h
  | cons x rest ih =>
    intro _
    cases rest with
    | nil => exact List.mem_singleton.mpr rfl
    | cons y q2 =>
      show (poll cl (x :: y :: q2)).1 ∈ x :: y :: q2
      unfold poll
      dsimp only
      split
      · exact List.mem_cons_self _ _
      · exact List.mem_cons_of_mem x (ih (by simp))

/-- Every element left after a poll was in the queue. -/
theorem poll_snd_subset (cl : List (Int × Int)) :
    ∀ (q : List Int) (x : Int), x ∈ (poll cl q).2 → x ∈ q := by
  intro q
  induction q with
  | nil => intro x hx; exact absurd hx (by simp [poll])
  | cons a rest ih =>
    intro x
    cases rest with
    | nil => intro hx; exact absurd hx (by simp [poll])
    | cons y q2 =>
      show x ∈ (poll cl (a :: y :: q2)).2 → x ∈ a :: y :: q2
      unfold poll
      dsimp only
      split
      · intro hx
        exact List.mem_cons_of_mem a hx
      · intro hx
        rcases List.mem_cons.mp hx with h | h
        · rw [h]; exact List.mem_cons_self _ _
        · exact List.mem_cons_of_mem a (ih x h)

/-- The polled label has minimal current count among the queue. -/
theorem poll_min (cl : List (Int × Int)) :
    ∀ (q : List Int), q ≠ [] →
    ∀ x ∈ q, countOf cl (poll cl q).1 ≤ countOf cl x := by
  intro q
  induction q with
  | nil => intro h; exact absurd rfl h
  | cons a rest ih =>
    intro _ x hx
    cases rest with
    | nil =>
      rcases List.mem_cons.mp hx with h | h
      · rw [h]; exact le_refl _
      · exact absurd h (by simp)
    | cons y q2 =>
      show countOf cl (poll cl (a :: y :: q2)).1 ≤ countOf cl x
      unfold poll
      dsimp only
      split
      · rename_i hc
        rcases List.mem_cons.mp hx with h | h
        · rw [h]
        · exact le_trans hc (ih (by simp) x h)
      · rename_i hc
        rcases List.mem_cons.mp hx with h | h
        · rw [h]
          exact le_of_lt (lt_of_not_le hc)
        · exact ih (by simp) x h

/-- The drain loop of `GetTop`, run with enough fuel, empties the queue
into a label list of the same length, produces the parallel count list,
draws only labels from the queue, and emits counts in nondecreasing
(min-first) order. -/
theorem drainAux_spec (cl : List (Int × Int)) :
    ∀ (fuel : Nat) (q : List Int), q.length ≤ fuel →
    (drainAux cl fuel q).1.length = q.length ∧
    (drainAux cl fuel q).2 = (drainAux cl fuel q).1.map (countOf cl) ∧
    (∀ x ∈ (drainAux cl fuel q).1, x ∈ q) ∧
    ((drainAux cl fuel q).1.map (countOf cl)).Sorted (· ≤ ·) := by
  intro fuel
  induction fuel with
  | zero =>
    intro q hq
    have hq0 : q = [] := List.eq_nil_of_length_eq_zero (Nat.le_zero.mp hq)
    subst hq0
    exact ⟨rfl, rfl, fun x hx => absurd hx (by simp [drainAux]), by simp [drainAux]⟩
  | succ fuel ih =>
    intro q hq
    cases q with
    | nil =>
      exact ⟨rfl, rfl, fun x hx => absurd hx (by simp [drainAux]), by simp [drainAux]⟩
    | cons a q2 =>
      have hne : (a :: q2) ≠ [] := by simp
      have hplen := poll_length cl (a :: q2) hne
      simp only [List.length_cons] at hplen hq
      have hq2 : (poll cl (a :: q2)).2.length ≤ fuel := by omega
      obtain ⟨ihl, ihsnd, ihmem, ihsort⟩ := ih (poll cl (a :: q2)).2 hq2
      have heq : drainAux cl (fuel + 1) (a :: q2) =
          ((poll cl (a :: q2)).1 :: (drainAux cl fuel (poll cl (a :: q2)).2).1,
           countOf cl (poll cl (a :: q2)).1 ::
             (drainAux cl fuel (poll cl (a :: q2)).2).2) := rfl
      rw [heq]
      refine ⟨?_, ?_, ?_, ?_⟩
      · simp only [List.length_cons]
        omega
      · show _ :: _ = List.map (countOf cl) (_ :: _)
        rw [List.map_cons, ihsnd]
      · intro x hx
        rcases List.mem_cons.mp hx with h | h
        · rw [h]
          exact poll_fst_mem cl _ hne
        · exact poll_snd_subset cl _ x (ihmem x h)
      · rw [List.map_cons, List.sorted_cons]
        refine ⟨?_, ihsort⟩
        intro b hb
        obtain ⟨z, hz, hzb⟩ := List.mem_map.mp hb
        rw [← hzb]
        exact poll_min cl _ hne z (poll_snd_subset cl _ z (ihmem z hz))

/-- C10 is refuted at a concrete input: on `sketchQ` the second `GetTop`
call does not fail — the source returns the cached `topcent` of the first
call, so both calls return the same drained list and the cached state is
untouched.  (Errors are panics, i.e. `none`-values, in this model;
`GetTop` has no panic branch at all.) -/
theorem claim_C10_counterexample :
    (GetTop sketchQ).1 = [9, 4] ∧
    (GetTop (GetTop sketchQ).2).1 = [9, 4] ∧
    (GetTop (GetTop sketchQ).2).2.topcent = some [9, 4] ∧
    (GetTop (GetTop sketchQ).2).2.priorityQueue = [] := by decide

/-- C10 (amended): the first `get_top` drains the heap into a min-first
ordered sequence (counts nondecreasing in poll order) with a parallel
counts array, leaving the heap empty; a second call without reset is NOT
an error — it returns the cached result of the first call with the state
unchanged. -/
theorem claim_C10_amended (s : KHHCountMinSketch) (hs : s.topcent = none) :
    ∃ tc s',
      GetTop s = (tc, s') ∧
      s'.priorityQueue = [] ∧
      s'.topcent = some tc ∧
      s'.counts = some (tc.map (countOf s.countlist)) ∧
      tc.length = s.priorityQueue.length ∧
      (∀ x ∈ tc, x ∈ s.priorityQueue) ∧
      (tc.map (countOf s.countlist)).Sorted (· ≤ ·) ∧
      GetTop s' = (tc, s') := by
  obtain ⟨hlen, hsnd, hmem, hsort⟩ :=
    drainAux_spec s.countlist s.priorityQueue.length s.priorityQueue (le_refl _)
  have hstep : GetTop s = ((drainPQ s.countlist s.priorityQueue).1,
      { s with
        topcent := some (drainPQ s.countlist s.priorityQueue).1,
        counts := some (drainPQ s.countlist s.priorityQueue).2,
        priorityQueue := [] }) := by
    unfold GetTop
    rw [hs]
  refine ⟨(drainPQ s.countlist s.priorityQueue).1, _, hstep, rfl, rfl, ?_, hlen, hmem,
    hsort, rfl⟩
  show some (drainAux s.countlist s.priorityQueue.length s.priorityQueue).2 = _
  rw [hsnd]
  rfl

/-- Witness for C10 (amended) at the concrete sketch `sketchQ`. -/
theorem claim_C10_witness :
    ∃ tc s',
      GetTop sketchQ = (tc, s') ∧
      s'.priorityQueue = [] ∧
      s'.topcent = some tc ∧
      (tc.map (countOf sketchQ.countlist)).Sorted (· ≤ ·) ∧
      GetTop s' = (tc, s') := by
  obtain ⟨tc, s', h1, h2, h3, h4, h5, h6, h7, h8⟩ := claim_C10_amended sketchQ rfl
  exact ⟨tc, s', h1, h2, h3, h7, h8⟩

/-- C3: evaluation of the reduce pass at a failing input.  The claim (and
the spec) requires: a vector is added to a centroid iff one of its LABELS
from `hash_stream` lies in the centroid's label set, the first matching
centroid wins so no vector is added twice, and every vector of the
iterator is processed.  The code instead: (1) `for h := range hash`
ranges over the INDICES `0, 1` of the label slice, not the labels
`42, 43`, so vector `100` — whose labels lie in no centroid's label set —
is matched against both centroids `{0}` and `{1}` by index; (2) the
`break` leaves only the inner loop, so vector `100` is added to BOTH
centroids; (3) the last vector `200` is fetched but never processed. -/
theorem claim_C3_failing_run :
    Reduce (fun _ _ => [42, 43]) 2 [0, 1] ([100, 200] : List Nat) =
      [{ ids := [0], updates := [100] }, { ids := [1], updates := [100] }] := by
  decide

/-- Folding subtraction of scaled coordinates equals subtracting the
scaled sum. -/
theorem foldl_sub_eq (v : Nat → ℝ) (c : ℝ) :
    ∀ (l : List Nat) (a : ℝ),
    l.foldl (fun su val => su - v val * c) a = a - c * (l.map v).sum := by
  intro l
  induction l with
  | nil => intro a; simp
  | cons x xs ih =>
    intro a
    simp only [List.foldl_cons, List.map_cons, List.sum_cons]
    rw [ih]
    ring

/-- Folding addition of scaled coordinates equals adding the scaled sum. -/
theorem foldl_add_eq (v : Nat → ℝ) (c : ℝ) :
    ∀ (l : List Nat) (a : ℝ),
    l.foldl (fun su val => su + v val * c) a = a + c * (l.map v).sum := by
  intro l
  induction l with
  | nil => intro a; simp
  | cons x xs ih =>
    intro a
    simp only [List.foldl_cons, List.map_cons, List.sum_cons]
    rw [ih]
    ring

/-- Row `i` of `Project` equals `scale · (Σ v over P[i] − Σ v over M[i])`,
the sums taken over the stored index lists with multiplicity. -/
theorem rpProject_getD (rp : RandomProjection) (v : Nat → ℝ) (i : Nat)
    (hi : i < rp.t) :
    (rpProject rp v).getD i 0 =
      rpScale rp.t * (((rp.P.getD i []).map v).sum - ((rp.M.getD i []).map v).sum) := by
  unfold rpProject
  rw [List.getD_eq_getElem _ _ (by simpa using hi), List.getElem_map,
    List.getElem_range, foldl_add_eq, foldl_sub_eq]
  ring

/-- Row `i < t` of the `M` matrix of `rpNew`, read off the row builder. -/
theorem rpNew_M_getD (n t : Nat) (rng : Nat → Nat) (i : Nat) (hi : i < t) :
    (rpNew n t rng).M.getD i [] =
      (buildRow n (fun j => rng (2 * (i * n + j)))
        (fun j => rng (2 * (i * n + j) + 1))).1 := by
  unfold rpNew
  rw [List.getD_eq_getElem _ _ (by simpa using hi), List.getElem_map,
    List.getElem_range]

/-- Row `i < t` of the `P` matrix of `rpNew`, read off the row builder. -/
theorem rpNew_P_getD (n t : Nat) (rng : Nat → Nat) (i : Nat) (hi : i < t) :
    (rpNew n t rng).P.getD i [] =
      (buildRow n (fun j => rng (2 * (i * n + j)))
        (fun j => rng (2 * (i * n + j) + 1))).2 := by
  unfold rpNew
  rw [List.getD_eq_getElem _ _ (by simpa using hi), List.getElem_map,
    List.getElem_range]

/-- The fold of the row builder appends the indices with `rM = 0` to the
first accumulator and those with `rM ≠ 0, rP = 0` to the second. -/
theorem foldl_rowStep_eq (rM rP : Nat → Nat) :
    ∀ (l : List Nat) (acc : List Nat × List Nat),
    l.foldl (rowStep rM rP) acc =
      (acc.1 ++ l.filter (fun j => decide (rM j = 0)),
       acc.2 ++ l.filter (fun j => decide (¬ rM j = 0 ∧ rP j = 0))) := by
  intro l
  induction l with
  | nil => intro acc; simp
  | cons x xs ih =>
    intro acc
    rw [List.foldl_cons, ih]
    by_cases hm : rM x = 0
    · have hstep : rowStep rM rP acc x = (acc.1 ++ [x], acc.2) := by
        unfold rowStep
        rw [if_pos hm]
      rw [hstep]
      simp only [List.filter_cons]
      rw [if_pos (by simpa using hm), if_neg (by simp [hm])]
      simp [List.append_assoc]
    · by_cases hp : rP x = 0
      · have hstep : rowStep rM rP acc x = (acc.1, acc.2 ++ [x]) := by
          unfold rowStep
          rw [if_neg hm, if_pos hp]
        rw [hstep]
        simp only [List.filter_cons]
        rw [if_neg (by simpa using hm), if_pos (by simp [hm, hp])]
        simp [List.append_assoc]
      · have hstep : rowStep rM rP acc x = acc := by
          unfold rowStep
          rw [if_neg hm, if_neg hp]
        rw [hstep]
        simp only [List.filter_cons]
        rw [if_neg (by simpa using hm), if_neg (by simp [hm, hp])]

/-- The row builder: a zero prefix of length `n/6` followed by the
selected indices, in both lists. -/
theorem buildRow_eq (n : Nat) (rM rP : Nat → Nat) :
    buildRow n rM rP =
      (List.replicate (n / 6) 0 ++ (List.range n).filter (fun j => decide (rM j = 0)),
       List.replicate (n / 6) 0 ++
         (List.range n).filter (fun j => decide (¬ rM j = 0 ∧ rP j = 0))) := by
  unfold buildRow
  rw [foldl_rowStep_eq]

/-- Over a duplicate-free index list, the sum of the basis vector `e_j`
is the membership indicator of `j`. -/
theorem sum_basis_nodup (j : Nat) :
    ∀ (l : List Nat), l.Nodup →
    ((l.map (basis j)).sum = if j ∈ l then (1 : ℝ) else 0) := by
  intro l
  induction l with
  | nil => intro _; simp
  | cons x xs ih =>
    intro hnd
    obtain ⟨hx, hnd2⟩ := List.nodup_cons.mp hnd
    simp only [List.map_cons, List.sum_cons]
    rw [ih hnd2]
    by_cases hj : x = j
    · have h1 : basis j x = 1 := by simp [basis, hj]
      have h2 : j ∉ xs := by rw [← hj]; exact hx
      rw [h1, if_neg h2, if_pos (List.mem_cons.mpr (Or.inl hj.symm))]
      norm_num
    · have h1 : basis j x = 0 := by simp [basis, hj]
      rw [h1]
      by_cases hm : j ∈ xs
      · rw [if_pos hm, if_pos (List.mem_cons.mpr (Or.inr hm))]
        ring
      · rw [if_neg hm, if_neg (by
          intro hc
          rcases List.mem_cons.mp hc with h | h
          · exact hj h.symm
          · exact hm h)]
        ring

/-- C8 is refuted at a concrete input: with `n = 6`, `t = 1` and a draw
stream that always returns 0, every index is appended to `M[0]` behind
the `make([]int, 1)` zero padding, so `M[0] = [0,0,1,2,3,4,5]` and
`P[0] = [0]` (padding only).  For the basis vector `e_0` the output row
is `scale · (1 − 2) = −scale ≠ 0`, while the claim's indicator formula
`scale · (1_{0∈P} − 1_{0∈M})` gives `scale · (1 − 1) = 0`. -/
theorem claim_C8_counterexample :
    ¬ ((rpProject (rpNew 6 1 (fun _ => 0)) (basis 0)).getD 0 0 =
      rpScale 1 * ((if (0 : Nat) ∈ (rpNew 6 1 (fun _ => 0)).P.getD 0 [] then (1 : ℝ) else 0) -
        (if (0 : Nat) ∈ (rpNew 6 1 (fun _ => 0)).M.getD 0 [] then (1 : ℝ) else 0))) := by
  intro hcl
  have hM : (rpNew 6 1 (fun _ => 0)).M.getD 0 [] = [0, 0, 1, 2, 3, 4, 5] := by decide
  have hP : (rpNew 6 1 (fun _ => 0)).P.getD 0 [] = [0] := by decide
  have hproj := rpProject_getD (rpNew 6 1 (fun _ => 0)) (basis 0) 0 (by decide)
  rw [hM, hP] at hproj hcl
  have h1 : (([0] : List Nat).map (basis 0)).sum = 1 := by
    simp [basis]
  have h2 : (([0, 0, 1, 2, 3, 4, 5] : List Nat).map (basis 0)).sum = 2 := by
    simp [basis]
    norm_num
  rw [hproj, h1, h2] at hcl
  rw [if_pos (by decide), if_pos (by decide)] at hcl
  rw [show (rpNew 6 1 (fun _ => 0)).t = 1 from rfl] at hcl
  have hs : 0 < rpScale 1 := by
    unfold rpScale
    apply Real.sqrt_pos.mpr
    norm_num
  nlinarith [hcl, hs]

/-- C8 (amended): for every projection and vector, row `i` of `Project`
equals `scale · (Σ v over PosIdx[i] − Σ v over NegIdx[i])` with the sums
taken over the stored index lists (with multiplicity); and for every
basis vector `e_j` with `j ≥ 1` — indices that cannot collide with the
`make([]int, n/6)` zero padding — each output coordinate of a freshly
built projection equals `scale · (1_{j∈PosIdx[i]} − 1_{j∈NegIdx[i]})`.
(For `j = 0` the padding makes the indicator form fail; see the
counterexample.) -/
theorem claim_C8_amended (n t : Nat) (rng : Nat → Nat) (i j : Nat)
    (hi : i < t) (hj : 1 ≤ j) :
    (∀ (rp : RandomProjection) (v : Nat → ℝ), i < rp.t →
      (rpProject rp v).getD i 0 =
        rpScale rp.t * (((rp.P.getD i []).map v).sum - ((rp.M.getD i []).map v).sum)) ∧
    (rpProject (rpNew n t rng) (basis j)).getD i 0 =
      rpScale t * ((if j ∈ (rpNew n t rng).P.getD i [] then (1 : ℝ) else 0) -
        (if j ∈ (rpNew n t rng).M.getD i [] then (1 : ℝ) else 0)) := by
  refine ⟨fun rp v hi2 => rpProject_getD rp v i hi2, ?_⟩
  have hproj := rpProject_getD (rpNew n t rng) (basis j) i hi
  rw [rpNew_M_getD n t rng i hi, rpNew_P_getD n t rng i hi, buildRow_eq] at hproj ⊢
  dsimp only at hproj ⊢
  rw [hproj]
  rw [List.map_append, List.sum_append, List.map_append, List.sum_append]
  have h0j : basis j 0 = 0 := by
    have : ¬ (0 = j) := by omega
    simp [basis, this]
  have hrep : ((List.replicate (n / 6) 0).map (basis j)).sum = 0 := by
    rw [List.map_replicate, h0j, List.sum_replicate, smul_zero]
  rw [hrep]
  have hndM : ((List.range n).filter
      (fun j2 => decide (rng (2 * (i * n + j2)) = 0))).Nodup :=
    List.Nodup.filter _ (List.nodup_range n)
  have hndP : ((List.range n).filter (fun j2 =>
      decide (¬ rng (2 * (i * n + j2)) = 0 ∧ rng (2 * (i * n + j2) + 1) = 0))).Nodup :=
    List.Nodup.filter _ (List.nodup_range n)
  rw [sum_basis_nodup j _ hndM, sum_basis_nodup j _ hndP]
  have hmem : ∀ (l : List Nat),
      (j ∈ List.replicate (n / 6) 0 ++ l) ↔ j ∈ l := by
    intro l
    constructor
    · intro hc
      rcases List.mem_append.mp hc with h | h
      · exact absurd ((List.eq_of_mem_replicate h)) (by omega)
      · exact h
    · intro hc
      exact List.mem_append.mpr (Or.inr hc)
  rw [if_congr (hmem _) rfl rfl, if_congr (hmem _) rfl rfl,
    show (rpNew n t rng).t = t from rfl]
  ring

/-- Witness for C8 (amended) at `n = 6`, `t = 1`, the constant draw
stream `1`, row `0` and basis index `1`. -/
theorem claim_C8_witness :
    (∀ (rp : RandomProjection) (v : Nat → ℝ), 0 < rp.t →
      (rpProject rp v).getD 0 0 =
        rpScale rp.t * (((rp.P.getD 0 []).map v).sum - ((rp.M.getD 0 []).map v).sum)) ∧
    (rpProject (rpNew 6 1 (fun _ => 1)) (basis 1)).getD 0 0 =
      rpScale 1 * ((if (1 : Nat) ∈ (rpNew 6 1 (fun _ => 1)).P.getD 0 [] then (1 : ℝ) else 0) -
        (if (1 : Nat) ∈ (rpNew 6 1 (fun _ => 1)).M.getD 0 [] then (1 : ℝ) else 0)) :=
  claim_C8_amended 6 1 (fun _ => 1) 0 1 (by decide) (by decide)

/-- C9: in every row `i` of a freshly built projection, both index lists
begin with `n/6` zeros — the `make([]int, n/6)` padding — and
consequently every output row of `Project` counts input coordinate 0
an extra `n/6` times inside each of the two sums. -/
theorem claim_C9_zero_padding (n t : Nat) (rng : Nat → Nat) (i : Nat)
    (_hn : 6 ≤ n) (hi : i < t) :
    ∃ selM selP,
      (rpNew n t rng).M.getD i [] = List.replicate (n / 6) 0 ++ selM ∧
      (rpNew n t rng).P.getD i [] = List.replicate (n / 6) 0 ++ selP ∧
      ((rpNew n t rng).M.getD i []).take (n / 6) = List.replicate (n / 6) 0 ∧
      ((rpNew n t rng).P.getD i []).take (n / 6) = List.replicate (n / 6) 0 ∧
      ∀ v : Nat → ℝ,
        (rpProject (rpNew n t rng) v).getD i 0 =
          rpScale t * ((((n / 6 : Nat) : ℝ) * v 0 + (selP.map v).sum) -
            (((n / 6 : Nat) : ℝ) * v 0 + (selM.map v).sum)) := by
  have hM := rpNew_M_getD n t rng i hi
  have hP := rpNew_P_getD n t rng i hi
  rw [buildRow_eq] at hM hP
  dsimp only at hM hP
  refine ⟨(List.range n).filter (fun j => decide (rng (2 * (i * n + j)) = 0)),
    (List.range n).filter (fun j =>
      decide (¬ rng (2 * (i * n + j)) = 0 ∧ rng (2 * (i * n + j) + 1) = 0)),
    hM, hP, ?_, ?_, ?_⟩
  · rw [hM, List.take_left' (List.length_replicate _ _)]
  · rw [hP, List.take_left' (List.length_replicate _ _)]
  · intro v
    have hproj := rpProject_getD (rpNew n t rng) v i hi
    rw [hM, hP] at hproj
    rw [hproj]
    rw [List.map_append, List.sum_append, List.map_append, List.sum_append,
      List.map_replicate, List.sum_replicate, nsmul_eq_mul,
      show (rpNew n t rng).t = t from rfl]

/-- Witness for C9 at `n = 6`, `t = 1`, the constant draw stream `1`,
row `0`. -/
theorem claim_C9_witness :
    ∃ selM selP,
      (rpNew 6 1 (fun _ => 1)).M.getD 0 [] = List.replicate 1 0 ++ selM ∧
      (rpNew 6 1 (fun _ => 1)).P.getD 0 [] = List.replicate 1 0 ++ selP ∧
      ((rpNew 6 1 (fun _ => 1)).M.getD 0 []).take 1 = List.replicate 1 0 ∧
      ((rpNew 6 1 (fun _ => 1)).P.getD 0 []).take 1 = List.replicate 1 0 ∧
      ∀ v : Nat → ℝ,
        (rpProject (rpNew 6 1 (fun _ => 1)) v).getD 0 0 =
          rpScale 1 * ((((1 : Nat) : ℝ) * v 0 + (selP.map v).sum) -
            (((1 : Nat) : ℝ) * v 0 + (selM.map v).sum)) :=
  claim_C9_zero_padding 6 1 (fun _ => 1) 0 (by decide) (by decide)

end RPHash
